import Mathlib

/-!
Verification of the number-theory and digit-engine core of
`mathics/builtin/numbertheory.py` against its specification.

Each Python entry point is shallowly embedded as an executable Lean
function.  Machine integers are modelled as `ℤ`/`ℕ` (Python integers are
arbitrary precision), Python's `%` and `//` on integers are the flooring
`Int.fmod`/`Int.fdiv`, failure paths (messages followed by `return`)
become `Option`/`Except` values, and the two `while` loops of the source
that have no structural bound (`IntegerExponent`, `check_finite_decimal`)
are given an explicit fuel parameter so that their (non-)termination can
be reasoned about.  The floating-point calls `mpmath.log`/`floor`/`ceil`
on exact integer arguments are modelled by the exact `Nat.log`/`Nat.clog`.
-/

namespace Mathics

/-! ### Mod (`Mod.apply`)

`Mod[n_Integer, m_Integer]`: message `divz` and no result when `m == 0`,
otherwise Python's `n % m`, which is flooring modulus (`Int.fmod`). -/

def modApply (n m : ℤ) : Option ℤ :=
  if m = 0 then none else some (Int.fmod n m)

/-! ### Quotient (`Quotient.apply`)

`Quotient[m_Integer, n_Integer]`: when `n == 0` the `infy` message is
emitted and the distinguished value `ComplexInfinity` is returned;
otherwise Python's floor division `m // n`.  The returned pair records
the result value and whether the `infy` message was emitted. -/

inductive QuotientValue where
  | intValue (z : ℤ)
  | complexInfinity
  deriving DecidableEq

def quotientApply (m n : ℤ) : QuotientValue × Bool :=
  if n = 0 then (QuotientValue.complexInfinity, true)
  else (QuotientValue.intValue (Int.fdiv m n), false)

/-! ### PowerMod (`PowerMod.apply`)

`PowerMod[a_Integer, b_Integer, m_Integer]`: `m == 0` gives the `divz`
message; `b < 0` first replaces `a` by `sympy.invert(a, m)` (which
raises `NotInvertible` exactly when `gcd(a, m) ≠ 1`), then
`pow(a, |b|, m)` is returned.  `sympy.invert` is external; it is
modelled as a modular inverse computed from the extended Euclidean
algorithm, reduced with Python's `%`. -/

def invert (a m : ℤ) : Option ℤ :=
  if Int.gcd a m = 1 then some ((Int.gcdA a m).fmod m) else none

inductive PowerModErr where
  | zeroModulus
  | notInvertible (a m : ℤ)
  deriving DecidableEq

def powerModApply (a b m : ℤ) : Except PowerModErr ℤ :=
  if m = 0 then Except.error PowerModErr.zeroModulus
  else if b < 0 then
    match invert a m with
    | some aInv => Except.ok ((aInv ^ (-b).toNat).fmod m)
    | none => Except.error (PowerModErr.notInvertible a m)
  else Except.ok ((a ^ b.toNat).fmod m)

/-! ### FactorInteger (`FactorInteger.apply`)

Integer case: `sympy.factorint` produces the prime ↦ multiplicity map of
`n`, which is then sorted ascending by prime.  Rational case: the
factorizations of numerator and denominator are merged, the
denominator's exponents entering negated, and the merged map (whose key
set is the union of the two key sets) is sorted ascending. -/

def factorint (n : ℕ) : List (ℕ × ℕ) :=
  (n.primeFactors.sort (· ≤ ·)).map fun p => (p, n.primeFactorsList.count p)

def factorintRat (num den : ℕ) : List (ℕ × ℤ) :=
  ((num.primeFactors ∪ den.primeFactors).sort (· ≤ ·)).map fun p =>
    (p, ((num.primeFactorsList.count p : ℕ) : ℤ) - ((den.primeFactorsList.count p : ℕ) : ℤ))

/-! ### IntegerExponent (`IntegerExponent.apply`)

The source runs `result = 1; while py_n % (py_b ** result) == 0: result += 1`
on `py_n = abs(n)` and returns `result - 1`.  The loop has no bound of
its own, so it is embedded with a fuel counter: `none` means the loop is
still running when the fuel is exhausted. -/

def integerExponentGo (N b : ℕ) : ℕ → ℕ → Option ℕ
  | _, 0 => none
  | r, fuel + 1 =>
    if N % b ^ r = 0 then integerExponentGo N b (r + 1) fuel else some (r - 1)

def integerExponentApply (n : ℤ) (b : ℕ) (fuel : ℕ) : Option ℕ :=
  integerExponentGo n.natAbs b 1 fuel

/-! ### check_finite_decimal and the rational digit path

`check_finite_decimal(denominator)` divides out all factors of `5`, then
all factors of `2`, and tests for `1`; the target base is not consulted.
The loops are embedded with fuel `n`, which is ample since every
division at least halves a positive argument (denominators are positive
by the data-model invariant).  `RealDigits.apply_rational_with_base`
routes the rational to the float-style digit path exactly when
`check_finite_decimal(denominator)` holds and the base is even
(`not py_b % 2`), and to the repeating-decimal path otherwise. -/

def divOutGo (p : ℕ) : ℕ → ℕ → ℕ
  | 0, n => n
  | fuel + 1, n => if 0 < n ∧ n % p = 0 ∧ 2 ≤ p then divOutGo p fuel (n / p) else n

def divOut (p n : ℕ) : ℕ := divOutGo p n n

def check_finite_decimal (d : ℕ) : Bool := divOut 2 (divOut 5 d) == 1

inductive DigitPath where
  | floatPath
  | repeatingPath
  deriving DecidableEq

def rationalDigitPath (b d : ℕ) : DigitPath :=
  if check_finite_decimal d = true ∧ b % 2 = 0 then DigitPath.floatPath
  else DigitPath.repeatingPath

/-- Modelled from the spec: the Digit Engine is specified to classify a
rational as finite in `base` "iff, after dividing out all factors of
`base`'s prime factors from the denominator, the remainder is 1".  This
definition follows those words (it folds `divOut` over the prime factors
of the base); it exists only to be compared with the source's
`check_finite_decimal`, which ignores the base. -/
def specFiniteInBase (b d : ℕ) : Bool :=
  ((b.primeFactors.sort (· ≤ ·)).foldl (fun acc p => divOut p acc) d) == 1

/-! ### The Digit Engine on exact integers (`RealDigits.apply_2`, `convert_float_base`)

For an exact integer input `n` with base `b` the source computes
  `display_len = floor(log_b |n|)` (`1` when `|n| ∈ {0, 1}`),
  `exp = ceil(log_b |n|)` (`1` when `|n| ∈ {0, 1}`, overridden to `0`
  when `n == 0` and an explicit length was requested),
then obtains the digit list: for `b ≠ 10` via `convert_float_base`
(repeated `x % b` / `x // b`, bounded by `int(log_b x) + 1` steps, then
reversed) followed by stripping leading zero digits; for `b = 10` from
the characters of `str(|n|)`, skipping leading zeros.  The list is
padded on the right with zeros up to `display_len`, and, when an
explicit length is present, truncated to its first `length` digits or
padded with further zeros up to `length`. -/

def convertIntGo (b : ℕ) : ℕ → ℕ → List ℕ
  | 0, _ => []
  | fuel + 1, x => x % b :: (if x / b = 0 then [] else convertIntGo b fuel (x / b))

def convert_float_base_int (x b : ℕ) : List ℕ :=
  (convertIntGo b (Nat.log b x + 1) x).reverse

def decDigitsGo : ℕ → ℕ → List ℕ
  | 0, _ => []
  | fuel + 1, n => if n < 10 then [n] else decDigitsGo fuel (n / 10) ++ [n % 10]

def decDigits (n : ℕ) : List ℕ := decDigitsGo (n + 1) n

def realDigitsIntCore (n b : ℕ) (oLen : Option ℕ) : List ℕ × ℤ :=
  let displayLen : ℕ := if n ≠ 0 ∧ n ≠ 1 then Nat.log b n else 1
  let exp : ℤ :=
    if n = 0 ∧ oLen.isSome then 0
    else if n ≠ 0 ∧ n ≠ 1 then (Nat.clog b n : ℤ) else 1
  let digits0 : List ℕ :=
    if b ≠ 10 then (convert_float_base_int n b).dropWhile (· == 0)
    else (decDigits n).dropWhile (· == 0)
  let digits1 : List ℕ := digits0 ++ List.replicate (displayLen - digits0.length) 0
  let digits2 : List ℕ :=
    match oLen with
    | none => digits1
    | some L =>
      if L ≤ digits1.length then digits1.take L
      else digits1 ++ List.replicate (L - digits1.length) 0
  (digits2, exp)

def realDigitsInt (n b : ℕ) : List ℕ × ℤ := realDigitsIntCore n b none

def realDigitsIntLen (n b L : ℕ) : List ℕ × ℤ := realDigitsIntCore n b (some L)

/-- The value described by a digit list `d₁ … dₖ` with point exponent `e`
in base `b`: `Σ dᵢ · b ^ (e − i)`. -/
def reconstruct (b : ℕ) : ℤ → List ℕ → ℚ
  | _, [] => 0
  | e, d :: ds => (d : ℚ) * (b : ℚ) ^ (e - 1) + reconstruct b (e - 1) ds

/-! ### NextPrime (`NextPrime.apply`)

For `k ≥ 0` the source returns `sympy.ntheory.nextprime(n, k)`; sympy's
`nextprime(n, i)` iterates its single-step form `i` times when `i > 1`
and otherwise returns the least prime strictly greater than `n` (its
`n < 2` clause returns `2`, which is that least prime).  For `k < 0` it
starts from `n` and applies `sympy.ntheory.prevprime` (the greatest
prime strictly below its argument, raising `ValueError` when the
argument is `≤ 2`) `|k|` times; if step `i` raises, it returns
`-nextprime(0, k - i)`. -/

def nextprime1 (n : ℤ) : ℕ :=
  Nat.find (p := fun m => n < (m : ℤ) ∧ m.Prime)
    (match Nat.exists_infinite_primes (n.toNat + 1) with
     | ⟨p, hp, hpp⟩ =>
       ⟨p, lt_of_le_of_lt (Int.self_le_toNat n) (by exact_mod_cast hp), hpp⟩)

def nextprimeIter (n : ℤ) : ℕ → ℕ
  | 0 => nextprime1 n
  | j + 1 => nextprime1 (nextprimeIter n j)

def sympyNextprime (n i : ℤ) : ℤ :=
  if 1 < i then (nextprimeIter n (i.toNat - 1) : ℤ) else (nextprime1 n : ℤ)

def prevprime (x : ℤ) : Option ℕ :=
  if x ≤ 2 then none else some (Nat.findGreatest Nat.Prime (x.toNat - 1))

def prevWalk (k : ℤ) : ℕ → ℤ → ℕ → ℤ
  | 0, cur, _ => cur
  | r + 1, cur, i =>
    match prevprime cur with
    | some p => prevWalk k r (p : ℤ) (i + 1)
    | none => -(sympyNextprime 0 (k - (i : ℤ)))

def nextPrimeApply (n k : ℤ) : ℤ :=
  if 0 ≤ k then sympyNextprime n k else prevWalk k (-k).toNat n 0

/-- The finite set of primes `q` with `n < q < p` (used to say "`p` is
the `k`-th prime strictly greater than `n`": `p` is prime, `n < p`, and
this set has `k - 1` elements). -/
def primesBetween (n : ℤ) (p : ℕ) : Finset ℕ :=
  (Finset.range p).filter fun q => q.Prime ∧ n < (q : ℤ)

/-- The finite set of primes strictly below the integer `n`. -/
def primesBelow (n : ℤ) : Finset ℕ :=
  (Finset.range n.toNat).filter fun q => q.Prime

/-! ### PrimeQ and PrimePowerQ

Both call `n.get_int_value()` and return the symbol `False` when it is
`None` (the input carries no integer value); the integer inputs are
modelled as `Option ℤ`.  `PrimeQ` then tests `sympy.isprime(abs(n))`,
modelled as exact primality of `n.natAbs` (the spec accepts the
probabilistic test as primality).  `PrimePowerQ` tests
`len(sympy.factorint(abs(n))) == 1`; `sympy.factorint` maps `0` to the
singleton `{0: 1}` and `1` to `{}`, so the length is `1` at `0` and the
number of distinct prime factors elsewhere. -/

def factorintCard (N : ℕ) : ℕ :=
  if N = 0 then 1 else N.primeFactors.card

def primeQApply (v : Option ℤ) : Bool :=
  match v with
  | none => false
  | some n => decide (Nat.Prime n.natAbs)

def primePowerQApply (v : Option ℤ) : Bool :=
  match v with
  | none => false
  | some n => factorintCard n.natAbs == 1

/-! ## Helper lemmas on Python's flooring `%` and `//` -/

theorem fmod_bounds_neg (a : ℤ) {b : ℤ} (hb : b < 0) :
    b < a.fmod b ∧ a.fmod b ≤ 0 := by
  cases b with
  | ofNat m => exact absurd hb (Int.ofNat_nonneg m).not_lt
  | negSucc n =>
    cases a with
    | ofNat m =>
      match m with
      | 0 =>
        rw [show Int.ofNat 0 = 0 from rfl, Int.zero_fmod, Int.negSucc_eq]
        omega
      | k + 1 =>
        have h : Int.fmod (Int.ofNat (k + 1)) (Int.negSucc n) =
            Int.subNatNat (k % (n + 1)) n := rfl
        have hlt : k % (n + 1) < n + 1 := Nat.mod_lt k (Nat.succ_pos n)
        rw [h, Int.subNatNat_eq_coe, Int.negSucc_eq]
        omega
    | negSucc m =>
      have h : Int.fmod (Int.negSucc m) (Int.negSucc n) =
          -(Int.ofNat ((m + 1) % (n + 1))) := rfl
      have hlt : (m + 1) % (n + 1) < n + 1 := Nat.mod_lt (m + 1) (Nat.succ_pos n)
      rw [h, Int.negSucc_eq, Int.ofNat_eq_natCast]
      omega

theorem dvd_sub_fmod (a b : ℤ) : b ∣ a - a.fmod b := by
  rw [Int.fmod_def]
  exact ⟨a.fdiv b, by ring⟩

theorem fdiv_eq_floor (m : ℤ) {n : ℤ} (hn : n ≠ 0) :
    Int.fdiv m n = ⌊(m : ℚ) / (n : ℚ)⌋ := by
  have key : n * Int.fdiv m n + Int.fmod m n = m := Int.fdiv_add_fmod m n
  symm
  rw [Int.floor_eq_iff]
  rcases lt_or_gt_of_ne hn with hneg | hpos
  · obtain ⟨h1, h2⟩ := fmod_bounds_neg m hneg
    have hnq : (n : ℚ) < 0 := by exact_mod_cast hneg
    constructor
    · rw [le_div_iff_of_neg hnq]
      have : m ≤ n * Int.fdiv m n := by omega
      calc (m : ℚ) ≤ ((n * Int.fdiv m n : ℤ) : ℚ) := by exact_mod_cast this
        _ = (Int.fdiv m n : ℚ) * n := by push_cast; ring
    · rw [div_lt_iff_of_neg hnq]
      have : n * Int.fdiv m n + n < m := by omega
      calc ((Int.fdiv m n : ℚ) + 1) * n = ((n * Int.fdiv m n + n : ℤ) : ℚ) := by
            push_cast; ring
        _ < m := by exact_mod_cast this
  · have h1 : 0 ≤ Int.fmod m n := Int.fmod_nonneg' m hpos
    have h2 : Int.fmod m n < n := Int.fmod_lt_of_pos m hpos
    have hnq : (0 : ℚ) < n := by exact_mod_cast hpos
    constructor
    · rw [le_div_iff₀ hnq]
      have : n * Int.fdiv m n ≤ m := by omega
      calc (Int.fdiv m n : ℚ) * n = ((n * Int.fdiv m n : ℤ) : ℚ) := by push_cast; ring
        _ ≤ m := by exact_mod_cast this
    · rw [div_lt_iff₀ hnq]
      have : m < n * Int.fdiv m n + n := by omega
      calc (m : ℚ) < ((n * Int.fdiv m n + n : ℤ) : ℚ) := by exact_mod_cast this
        _ = ((Int.fdiv m n : ℚ) + 1) * n := by push_cast; ring

/-! ## C3: Mod sign convention -/

/-- C3: for every integer `n` and nonzero `m`, `Mod[n, m]` succeeds with a
value `r` such that `m` divides `n - r` and `r` has the sign of `m` (or is
zero); in particular `Mod[-3, 4] = 1` and `Mod[-3, -4] = -3`, while
`Mod[n, 0]` fails with the zero-modulus condition. -/
theorem mod_apply_spec :
    (∀ n m : ℤ, m ≠ 0 → ∃ r, modApply n m = some r ∧ m ∣ n - r ∧
      (0 < m → 0 ≤ r ∧ r < m) ∧ (m < 0 → m < r ∧ r ≤ 0))
    ∧ modApply (-3) 4 = some 1 ∧ modApply (-3) (-4) = some (-3)
    ∧ ∀ n : ℤ, modApply n 0 = none := by
  refine ⟨fun n m hm => ⟨Int.fmod n m, ?_, dvd_sub_fmod n m, ?_, ?_⟩, by decide, by decide,
    fun n => by simp [modApply]⟩
  · simp [modApply, hm]
  · intro h
    exact ⟨Int.fmod_nonneg' n h, Int.fmod_lt_of_pos n h⟩
  · intro h
    exact fmod_bounds_neg n h

/-- Witness for C3 at `n = -3`, `m = 4`. -/
theorem mod_apply_spec_witness :
    (4 : ℤ) ≠ 0 ∧ ∃ r, modApply (-3) 4 = some r ∧ (4 : ℤ) ∣ -3 - r ∧
      ((0 : ℤ) < 4 → 0 ≤ r ∧ r < 4) ∧ ((4 : ℤ) < 0 → 4 < r ∧ r ≤ 0) :=
  ⟨by decide, mod_apply_spec.1 (-3) 4 (by decide)⟩

/-! ## C6: finite-representation test and rational digit routing -/

theorem divOutGo_decompose (p : ℕ) (hp : 2 ≤ p) :
    ∀ fuel n, n ≤ fuel → 0 < n →
      ∃ k, n = divOutGo p fuel n * p ^ k ∧ ¬ p ∣ divOutGo p fuel n ∧
        0 < divOutGo p fuel n := by
  intro fuel
  induction fuel with
  | zero => intro n h1 h2; omega
  | succ f ih =>
    intro n h1 h2
    by_cases hdvd : n % p = 0
    · have hg : 0 < n ∧ n % p = 0 ∧ 2 ≤ p := ⟨h2, hdvd, hp⟩
      have hdvd' : p ∣ n := Nat.dvd_of_mod_eq_zero hdvd
      have hq1 : 0 < n / p := Nat.div_pos (Nat.le_of_dvd h2 hdvd') (by omega)
      have hq2 : n / p < n := Nat.div_lt_self h2 (by omega)
      obtain ⟨k, hk, hnd, hpos⟩ := ih (n / p) (by omega) hq1
      refine ⟨k + 1, ?_, ?_, ?_⟩
      · rw [divOutGo, if_pos hg]
        calc n = n / p * p := (Nat.div_mul_cancel hdvd').symm
          _ = divOutGo p f (n / p) * p ^ k * p := by rw [← hk]
          _ = divOutGo p f (n / p) * p ^ (k + 1) := by ring
      · rw [divOutGo, if_pos hg]; exact hnd
      · rw [divOutGo, if_pos hg]; exact hpos
    · have hg : ¬ (0 < n ∧ n % p = 0 ∧ 2 ≤ p) := fun h => hdvd h.2.1
      rw [divOutGo, if_neg hg]
      exact ⟨0, by ring_nf, fun h => hdvd (Nat.mod_eq_zero_of_dvd h), h2⟩

theorem pow_mul_cancel_of_not_dvd {p : ℕ} (hp : p.Prime) :
    ∀ k₁ k₂ m₁ m₂ : ℕ, m₁ * p ^ k₁ = m₂ * p ^ k₂ → ¬ p ∣ m₁ → ¬ p ∣ m₂ → m₁ = m₂ := by
  intro k₁
  induction k₁ with
  | zero =>
    intro k₂ m₁ m₂ heq h1 h2
    match k₂ with
    | 0 => simpa using heq
    | j + 1 =>
      exfalso
      apply h1
      refine ⟨m₂ * p ^ j, ?_⟩
      simpa [pow_succ] using heq.trans (by ring)
  | succ i ih =>
    intro k₂ m₁ m₂ heq h1 h2
    match k₂ with
    | 0 =>
      exfalso
      apply h2
      refine ⟨m₁ * p ^ i, ?_⟩
      simp only [pow_zero, mul_one] at heq
      rw [← heq]; ring
    | j + 1 =>
      refine ih j m₁ m₂ ?_ h1 h2
      have hp0 : p ≠ 0 := hp.ne_zero
      have : m₁ * p ^ i * p = m₂ * p ^ j * p := by
        calc m₁ * p ^ i * p = m₁ * p ^ (i + 1) := by ring
          _ = m₂ * p ^ (j + 1) := heq
          _ = m₂ * p ^ j * p := by ring
      exact Nat.eq_of_mul_eq_mul_right (Nat.pos_of_ne_zero hp0) this

theorem divOut_decompose (p n : ℕ) (hp : 2 ≤ p) (hn : 0 < n) :
    ∃ k, n = divOut p n * p ^ k ∧ ¬ p ∣ divOut p n ∧ 0 < divOut p n :=
  divOutGo_decompose p hp n n le_rfl hn

theorem divOut_eq_of_eq_mul_pow {p m k n : ℕ} (hp : p.Prime) (hm : 0 < m)
    (hnd : ¬ p ∣ m) (hn : n = m * p ^ k) : divOut p n = m := by
  have hpos : 0 < n := by
    rw [hn]
    exact Nat.mul_pos hm (Nat.pos_pow_of_pos k hp.pos)
  obtain ⟨k2, hk2, hnd2, hpos2⟩ := divOut_decompose p n hp.two_le hpos
  exact pow_mul_cancel_of_not_dvd hp k2 k (divOut p n) m (hk2.symm.trans hn) hnd2 hnd

theorem check_finite_decimal_iff (d : ℕ) (hd : 0 < d) :
    check_finite_decimal d = true ↔ ∃ i j, d = 2 ^ i * 5 ^ j := by
  constructor
  · intro h
    obtain ⟨j, hj, hnd5, hpos5⟩ := divOut_decompose 5 d (by omega) hd
    obtain ⟨i, hi, hnd2, hpos2⟩ := divOut_decompose 2 (divOut 5 d) (by omega) hpos5
    have hone : divOut 2 (divOut 5 d) = 1 := by
      have h' := h
      rw [check_finite_decimal] at h'
      exact beq_iff_eq.mp h'
    refine ⟨i, j, ?_⟩
    rw [hj, hi, hone, one_mul]
  · rintro ⟨i, j, rfl⟩
    have h5 : divOut 5 (2 ^ i * 5 ^ j) = 2 ^ i := by
      refine divOut_eq_of_eq_mul_pow (by norm_num) (Nat.pos_pow_of_pos i (by norm_num)) ?_ rfl
      intro hdvd
      have := (Nat.Prime.dvd_of_dvd_pow (by norm_num : Nat.Prime 5)) hdvd
      omega
    have h2 : divOut 2 (2 ^ i) = 1 := by
      refine divOut_eq_of_eq_mul_pow (by norm_num) one_pos ?_ (by rw [one_mul])
      exact fun hdvd => by omega
    rw [check_finite_decimal, h5, h2]
    rfl

/-- C6 counterexample: the source's finite-representation test ignores
the base.  For base `2`, denominator `5`: the spec's base-aware test
says `1/5` is infinite in base 2, but the code classifies it finite and
routes it to the float path; for base `3`, denominator `3`: the spec's
test says `1/3` is finite in base 3, but the code routes it to the
repeating-decimal path. -/
theorem rationalDigitPath_counterexample :
    check_finite_decimal 5 = true
    ∧ rationalDigitPath 2 5 = DigitPath.floatPath
    ∧ specFiniteInBase 2 5 = false
    ∧ specFiniteInBase 3 3 = true
    ∧ rationalDigitPath 3 3 = DigitPath.repeatingPath := by
  have hpf2 : (2 : ℕ).primeFactors = {2} := Nat.Prime.primeFactors Nat.prime_two
  have hpf3 : (3 : ℕ).primeFactors = {3} := Nat.Prime.primeFactors Nat.prime_three
  refine ⟨by decide, by decide, ?_, ?_, by decide⟩
  · rw [specFiniteInBase, hpf2, Finset.sort_singleton]
    decide
  · rw [specFiniteInBase, hpf3, Finset.sort_singleton]
    decide

/-- C6 amended: the source routes an exact rational to the float-style
digit path iff its (positive) denominator is of the form `2^i · 5^j`
and the base is even; all other rationals take the repeating-decimal
long-division path.  The base's own prime factors are never consulted. -/
theorem rationalDigitPath_spec (b d : ℕ) (hd : 0 < d) :
    rationalDigitPath b d = DigitPath.floatPath ↔
      (∃ i j, d = 2 ^ i * 5 ^ j) ∧ b % 2 = 0 := by
  rw [rationalDigitPath]
  constructor
  · intro h
    by_cases hc : check_finite_decimal d = true ∧ b % 2 = 0
    · exact ⟨(check_finite_decimal_iff d hd).mp hc.1, hc.2⟩
    · rw [if_neg hc] at h
      exact absurd h (by simp)
  · intro ⟨h1, h2⟩
    rw [if_pos ⟨(check_finite_decimal_iff d hd).mpr h1, h2⟩]

/-- Witness for C6's amended claim at base `10`, denominator `8`
(`1/8` is finite in base 10 and is routed to the float path). -/
theorem rationalDigitPath_spec_witness :
    0 < 8 ∧ (rationalDigitPath 10 8 = DigitPath.floatPath ↔
      (∃ i j, (8 : ℕ) = 2 ^ i * 5 ^ j) ∧ 10 % 2 = 0) :=
  ⟨by decide, rationalDigitPath_spec 10 8 (by decide)⟩

/-! ## C2 and C5: the integer digit path at a power of the base

The source computes the point exponent of a nonzero, non-unit integer as
`ceil(log_b |n|)` (`Nat.clog`), while the spec prescribes
`floor(log_b |n|) + 1` (`Nat.log · + 1`).  The two agree except when
`|n|` is a positive power of `b`, where the code's exponent is one too
small and the digit round-trip fails.  `n = 4`, `b = 2` exhibits it. -/

theorem log_two_four : Nat.log 2 4 = 2 :=
  Nat.log_eq_of_pow_le_of_lt_pow (by norm_num) (by norm_num)

theorem clog_two_four : Nat.clog 2 4 = 2 := by
  have h1 : Nat.clog 2 4 ≤ 2 :=
    (Nat.le_pow_iff_clog_le (by norm_num)).mp (by norm_num)
  have h2 : ¬ Nat.clog 2 4 ≤ 1 := fun h =>
    absurd ((Nat.le_pow_iff_clog_le (by norm_num)).mpr h) (by norm_num)
  omega

theorem realDigitsInt_four_two : realDigitsInt 4 2 = ([1, 0, 0], 2) := by
  rw [realDigitsInt, realDigitsIntCore]
  rw [convert_float_base_int, log_two_four, clog_two_four]
  decide

/-- C2 (failing input): `RealDigits[4, 2]` returns digits `[1, 0, 0]`
with point exponent `2`, so the reconstruction `Σ dᵢ · 2 ^ (e − i)`
gives `2`, not the input `4`: the digit round-trip claimed for all
non-negative integers fails at powers of the base. -/
theorem realDigits_roundtrip_failure :
    realDigitsInt 4 2 = ([1, 0, 0], 2)
    ∧ reconstruct 2 (realDigitsInt 4 2).2 (realDigitsInt 4 2).1 = 2
    ∧ reconstruct 2 (realDigitsInt 4 2).2 (realDigitsInt 4 2).1 ≠ (4 : ℚ) := by
  refine ⟨realDigitsInt_four_two, ?_, ?_⟩
  · rw [realDigitsInt_four_two]
    show (1 : ℚ) * (2 : ℚ) ^ (2 - 1 : ℤ) + ((0 : ℚ) * (2 : ℚ) ^ (1 - 1 : ℤ)
      + ((0 : ℚ) * (2 : ℚ) ^ (0 - 1 : ℤ) + 0)) = 2
    norm_num
  · rw [realDigitsInt_four_two]
    show (1 : ℚ) * (2 : ℚ) ^ (2 - 1 : ℤ) + ((0 : ℚ) * (2 : ℚ) ^ (1 - 1 : ℤ)
      + ((0 : ℚ) * (2 : ℚ) ^ (0 - 1 : ℤ) + 0)) ≠ 4
    norm_num

/-- C5 (failing input): the point exponent the code assigns to the exact
integer `4` in base `2` is `ceil(log₂ 4) = 2`, not the claimed
`floor(log₂ 4) + 1 = 3`; the two formulas disagree exactly at powers of
the base.  The claimed zero special cases do hold: `RealDigits[0, 10, 5]`
gives five zero digits with exponent `0`, and `0` and `1` without a
length give exponent `1`. -/
theorem realDigits_exponent_failure :
    (realDigitsInt 4 2).2 = 2
    ∧ (Nat.log 2 4 : ℤ) + 1 = 3
    ∧ realDigitsIntLen 0 10 5 = ([0, 0, 0, 0, 0], 0)
    ∧ realDigitsInt 0 10 = ([0], 1)
    ∧ realDigitsInt 1 10 = ([1], 1) := by
  refine ⟨?_, ?_, ?_, ?_, ?_⟩
  · rw [realDigitsInt_four_two]
  · rw [log_two_four]
    norm_num
  · decide
  · decide
  · decide

/-! ## C9: Quotient -/

/-- C9: for all integers `m`, `n`, `Quotient[m, n]` returns the floor
`⌊m / n⌋` (with no message) when `n ≠ 0`, and when `n = 0` it emits the
division-by-infinity message and produces the distinguished
`ComplexInfinity` value; no other outcome is possible. -/
theorem quotient_apply_spec (m n : ℤ) :
    (n ≠ 0 → quotientApply m n = (QuotientValue.intValue ⌊(m : ℚ) / (n : ℚ)⌋, false))
    ∧ (n = 0 → quotientApply m n = (QuotientValue.complexInfinity, true)) := by
  constructor
  · intro hn
    rw [quotientApply, if_neg hn, fdiv_eq_floor m hn]
  · intro hn
    rw [quotientApply, if_pos hn]

/-- Witness for C9 at `m = -17`, `n = 7` (the source's doctest value
`Quotient[-17, 7] = -3`). -/
theorem quotient_apply_spec_witness :
    quotientApply (-17) 7 = (QuotientValue.intValue (-3), false) := by
  rw [(quotient_apply_spec (-17) 7).1 (by decide)]
  norm_num

/-! ## C4: PowerMod -/

theorem fmod_modEq (a b : ℤ) : Int.ModEq b (a.fmod b) a :=
  Int.modEq_iff_dvd.mpr (dvd_sub_fmod a b)

/-- C4: for `gcd(a, m) = 1`, `m ≠ 0` and positive `b`,
`PowerMod[a, -b, m] * PowerMod[a, b, m] ≡ 1 (mod m)`; for negative
exponent and non-coprime base the call fails with `NotInvertible(a, m)`,
and modulus `0` fails with the zero-modulus condition. -/
theorem powerMod_apply_spec :
    (∀ a b m : ℤ, 0 < b → m ≠ 0 → Int.gcd a m = 1 →
      ∃ r s, powerModApply a (-b) m = Except.ok r ∧ powerModApply a b m = Except.ok s ∧
        m ∣ r * s - 1)
    ∧ (∀ a b m : ℤ, b < 0 → m ≠ 0 → Int.gcd a m ≠ 1 →
        powerModApply a b m = Except.error (PowerModErr.notInvertible a m))
    ∧ (∀ a b : ℤ, powerModApply a b 0 = Except.error PowerModErr.zeroModulus) := by
  refine ⟨?_, ?_, ?_⟩
  · intro a b m hb hm hg
    set A := Int.gcdA a m with hA
    set x := A.fmod m with hx
    set k := b.toNat with hk
    have hinv : invert a m = some x := by rw [invert, if_pos hg]
    refine ⟨(x ^ k).fmod m, (a ^ k).fmod m, ?_, ?_, ?_⟩
    · rw [powerModApply, if_neg hm, if_pos (by omega : -b < 0), hinv]
      simp [neg_neg]
    · rw [powerModApply, if_neg hm, if_neg (by omega : ¬ b < 0)]
    · have hbez : a * A + m * Int.gcdB a m = 1 := by
        have := (Int.gcd_eq_gcd_ab a m).symm
        rw [hg] at this
        exact_mod_cast this
      have h1 : Int.ModEq m (a * A) 1 := by
        refine Int.modEq_iff_dvd.mpr ⟨Int.gcdB a m, ?_⟩
        linarith
      have h2 : Int.ModEq m (a * x) 1 :=
        ((Int.ModEq.refl a).mul (fmod_modEq A m)).trans h1
      have h3 : Int.ModEq m ((x ^ k).fmod m * (a ^ k).fmod m) 1 := by
        calc (x ^ k).fmod m * (a ^ k).fmod m
            ≡ x ^ k * a ^ k [ZMOD m] := (fmod_modEq _ m).mul (fmod_modEq _ m)
          _ = (a * x) ^ k := by rw [mul_pow]; ring
          _ ≡ 1 ^ k [ZMOD m] := h2.pow k
          _ = 1 := one_pow k
      have := Int.modEq_iff_dvd.mp h3.symm
      simpa using this
  · intro a b m hb hm hg
    rw [powerModApply, if_neg hm, if_pos hb, invert, if_neg hg]
  · intro a b
    rw [powerModApply, if_pos rfl]

/-- Witness for C4 at `a = 3`, `b = 2`, `m = 10` (the source doctests
`PowerMod[3, -2, 10] = 9` and `PowerMod[3, 2, 10] = 9`, `9 · 9 ≡ 1 (mod 10)`). -/
theorem powerMod_apply_spec_witness :
    (0 : ℤ) < 2 ∧ (10 : ℤ) ≠ 0 ∧ Int.gcd 3 10 = 1 ∧
      ∃ r s, powerModApply 3 (-2) 10 = Except.ok r ∧ powerModApply 3 2 10 = Except.ok s ∧
        (10 : ℤ) ∣ r * s - 1 :=
  ⟨by decide, by decide, by decide, powerMod_apply_spec.1 3 2 10 (by decide) (by decide) (by decide)⟩

/-! ## C1: FactorInteger round-trip -/

theorem factorint_fst (n : ℕ) :
    (factorint n).map Prod.fst = n.primeFactors.sort (· ≤ ·) := by
  rw [factorint, List.map_map]
  exact List.map_id _

theorem factorintRat_fst (p q : ℕ) :
    (factorintRat p q).map Prod.fst = (p.primeFactors ∪ q.primeFactors).sort (· ≤ ·) := by
  rw [factorintRat, List.map_map]
  exact List.map_id _

theorem factorint_prod (n : ℕ) (hn : n ≠ 0) :
    ((factorint n).map fun pe => pe.1 ^ pe.2).prod = n := by
  rw [factorint, List.map_map]
  simp only [Function.comp_def]
  have hperm := (Finset.sort_perm_toList (· ≤ ·) n.primeFactors).map
    fun p => p ^ n.primeFactorsList.count p
  rw [List.Perm.prod_eq hperm, Finset.prod_to_list]
  simp only [Nat.primeFactorsList_count_eq]
  rw [← Nat.prod_factorization_eq_prod_primeFactors]
  exact Nat.factorization_prod_pow_eq_self hn

theorem prod_primeFactors_zpow_cast (n : ℕ) (hn : n ≠ 0) :
    ∏ r ∈ n.primeFactors, (r : ℚ) ^ (n.factorization r : ℤ) = (n : ℚ) := by
  have hcast : ∏ r ∈ n.primeFactors, (r : ℚ) ^ (n.factorization r : ℤ)
      = ((∏ r ∈ n.primeFactors, r ^ n.factorization r : ℕ) : ℚ) := by
    push_cast
    exact Finset.prod_congr rfl fun r _ => by rw [zpow_natCast]
  rw [hcast, ← Nat.prod_factorization_eq_prod_primeFactors,
    Nat.factorization_prod_pow_eq_self hn]

theorem prod_union_zpow (p q : ℕ) (hp : p ≠ 0) :
    ∏ r ∈ p.primeFactors ∪ q.primeFactors, (r : ℚ) ^ (p.factorization r : ℤ) = (p : ℚ) := by
  rw [← prod_primeFactors_zpow_cast p hp]
  refine (Finset.prod_subset Finset.subset_union_left fun r _ hr => ?_).symm
  have h0 : p.factorization r = 0 := by
    rw [← Nat.support_factorization] at hr
    exact Finsupp.not_mem_support_iff.mp hr
  rw [h0]
  exact zpow_zero _

theorem factorintRat_prod (p q : ℕ) (hp : p ≠ 0) (hq : q ≠ 0) :
    ((factorintRat p q).map fun pe => (pe.1 : ℚ) ^ pe.2).prod = (p : ℚ) / (q : ℚ) := by
  rw [factorintRat, List.map_map]
  simp only [Function.comp_def]
  have hperm := (Finset.sort_perm_toList (· ≤ ·) (p.primeFactors ∪ q.primeFactors)).map
    fun (r : ℕ) => (r : ℚ) ^ (((p.primeFactorsList.count r : ℕ) : ℤ) -
      ((q.primeFactorsList.count r : ℕ) : ℤ))
  rw [List.Perm.prod_eq hperm, Finset.prod_to_list]
  simp only [Nat.primeFactorsList_count_eq]
  have hstep : ∀ r ∈ p.primeFactors ∪ q.primeFactors,
      (r : ℚ) ^ ((p.factorization r : ℤ) - (q.factorization r : ℤ))
        = (r : ℚ) ^ (p.factorization r : ℤ) / (r : ℚ) ^ (q.factorization r : ℤ) := by
    intro r hr
    have hrp : r.Prime := by
      rcases Finset.mem_union.mp hr with h | h
      · exact Nat.prime_of_mem_primeFactors h
      · exact Nat.prime_of_mem_primeFactors h
    exact zpow_sub₀ (by exact_mod_cast hrp.ne_zero) _ _
  rw [Finset.prod_congr rfl hstep, Finset.prod_div_distrib,
    prod_union_zpow p q hp]
  have h2 : ∏ r ∈ p.primeFactors ∪ q.primeFactors, (r : ℚ) ^ (q.factorization r : ℤ)
      = (q : ℚ) := by
    rw [Finset.union_comm]
    exact prod_union_zpow q p hq
  rw [h2]

/-- C1: for positive `n`, the product of `prime ^ exponent` over
`FactorInteger[n]` is `n`, the pairs are sorted strictly ascending by
prime, and every pair has a prime first component and nonzero exponent;
for a reduced positive rational `p/q`, the signed-exponent product over
`FactorInteger[p/q]` is `p/q`, the pairs are sorted ascending, and no
pair with net exponent `0` appears. -/
theorem factorInteger_apply_spec :
    (∀ n : ℕ, 0 < n →
      (((factorint n).map fun pe => pe.1 ^ pe.2).prod = n
        ∧ ((factorint n).map Prod.fst).Sorted (· < ·)
        ∧ ∀ pe ∈ factorint n, pe.1.Prime ∧ pe.2 ≠ 0))
    ∧ (∀ p q : ℕ, 0 < p → 0 < q → Nat.Coprime p q →
      (((factorintRat p q).map fun pe => (pe.1 : ℚ) ^ pe.2).prod = (p : ℚ) / (q : ℚ)
        ∧ ((factorintRat p q).map Prod.fst).Sorted (· < ·)
        ∧ ∀ pe ∈ factorintRat p q, pe.1.Prime ∧ pe.2 ≠ 0)) := by
  constructor
  · intro n hn
    refine ⟨factorint_prod n hn.ne', ?_, ?_⟩
    · rw [factorint_fst]
      exact Finset.sort_sorted_lt _
    · intro pe hpe
      obtain ⟨r, hr, rfl⟩ := List.mem_map.mp hpe
      have hmem : r ∈ n.primeFactors := (Finset.mem_sort _).mp hr
      refine ⟨Nat.prime_of_mem_primeFactors hmem, ?_⟩
      simp only [Nat.primeFactorsList_count_eq]
      rw [← Nat.support_factorization] at hmem
      exact Finsupp.mem_support_iff.mp hmem
  · intro p q hp hq hpq
    refine ⟨factorintRat_prod p q hp.ne' hq.ne', ?_, ?_⟩
    · rw [factorintRat_fst]
      exact Finset.sort_sorted_lt _
    · intro pe hpe
      obtain ⟨r, hr, rfl⟩ := List.mem_map.mp hpe
      have hmem : r ∈ p.primeFactors ∪ q.primeFactors := (Finset.mem_sort _).mp hr
      have hdisj := hpq.disjoint_primeFactors
      have hcount : ∀ m : ℕ, r ∈ m.primeFactors → m.primeFactorsList.count r ≠ 0 := by
        intro m hm
        simp only [Nat.primeFactorsList_count_eq]
        rw [← Nat.support_factorization] at hm
        exact Finsupp.mem_support_iff.mp hm
      have hzero : ∀ m : ℕ, m ≠ 0 → r ∉ m.primeFactors → m.primeFactorsList.count r = 0 := by
        intro m _ hm
        simp only [Nat.primeFactorsList_count_eq]
        rw [← Nat.support_factorization] at hm
        exact Finsupp.not_mem_support_iff.mp hm
      rcases Finset.mem_union.mp hmem with hmp | hmq
      · have h1 := hcount p hmp
        have h2 := hzero q hq.ne' (Finset.disjoint_left.mp hdisj hmp)
        refine ⟨Nat.prime_of_mem_primeFactors hmp, ?_⟩
        simp only [h2, Nat.cast_zero, sub_zero]
        exact_mod_cast h1
      · have h1 := hcount q hmq
        have h2 := hzero p hp.ne' (Finset.disjoint_right.mp hdisj hmq)
        refine ⟨Nat.prime_of_mem_primeFactors hmq, ?_⟩
        simp only [h2, Nat.cast_zero, zero_sub, neg_ne_zero]
        exact_mod_cast h1

/-- Witness for C1 at `n = 2010` and `p/q = 2010/2011` (the source
doctests `FactorInteger[2010]` and `FactorInteger[2010/2011]`). -/
theorem factorInteger_apply_spec_witness :
    (0 < 2010 ∧ ((factorint 2010).map fun pe => pe.1 ^ pe.2).prod = 2010)
    ∧ (Nat.Coprime 2010 2011 ∧
      ((factorintRat 2010 2011).map fun pe => (pe.1 : ℚ) ^ pe.2).prod
        = (2010 : ℚ) / (2011 : ℚ)) :=
  ⟨⟨by decide, (factorInteger_apply_spec.1 2010 (by decide)).1⟩,
   ⟨by decide, (factorInteger_apply_spec.2 2010 2011 (by decide) (by decide) (by decide)).1⟩⟩

/-! ## C7: IntegerExponent -/

theorem integerExponentGo_zero_input (b : ℕ) :
    ∀ fuel r, integerExponentGo 0 b r fuel = none := by
  intro fuel
  induction fuel with
  | zero => intro r; rfl
  | succ f ih =>
    intro r
    simp only [integerExponentGo, Nat.zero_mod, if_pos rfl]
    exact ih (r + 1)

theorem integerExponentGo_run (N b E : ℕ)
    (hE : ¬ b ^ E ∣ N) (hmin : ∀ r, r < E → b ^ r ∣ N) :
    ∀ fuel r, r ≤ E → E - r < fuel → integerExponentGo N b r fuel = some (E - 1) := by
  intro fuel
  induction fuel with
  | zero => intro r _ h2; omega
  | succ f ih =>
    intro r h1 h2
    rcases eq_or_lt_of_le h1 with rfl | hlt
    · have hne : N % b ^ r ≠ 0 := fun h => hE (Nat.dvd_of_mod_eq_zero h)
      simp only [integerExponentGo, if_neg hne]
    · have hz : N % b ^ r = 0 := Nat.mod_eq_zero_of_dvd (hmin r hlt)
      simp only [integerExponentGo, if_pos hz]
      exact ih (r + 1) (by omega) (by omega)

/-- C7: `IntegerExponent[0, 10]` never leaves its trial-division loop
(for every fuel bound the loop is still running), while for `n ≠ 0` and
base `b ≥ 2` the loop terminates within `|n|` iterations and returns the
largest `e` with `b ^ e` dividing `|n|`. -/
theorem integerExponent_apply_spec :
    (∀ fuel : ℕ, integerExponentApply 0 10 fuel = none)
    ∧ (∀ (n : ℤ) (b fuel : ℕ), n ≠ 0 → 2 ≤ b → n.natAbs < fuel →
        ∃ e, integerExponentApply n b fuel = some e ∧ b ^ e ∣ n.natAbs ∧
          ∀ j, b ^ j ∣ n.natAbs → j ≤ e) := by
  constructor
  · intro fuel
    exact integerExponentGo_zero_input 10 fuel 1
  · intro n b fuel hn hb hfuel
    set N := n.natAbs with hNdef
    have hN : N ≠ 0 := fun h => hn (Int.natAbs_eq_zero.mp h)
    have hex : ∃ r, ¬ b ^ r ∣ N := by
      refine ⟨N, fun hdvd => ?_⟩
      have h1 : b ^ N ≤ N := Nat.le_of_dvd (Nat.pos_of_ne_zero hN) hdvd
      have h2 : N < 2 ^ N := Nat.lt_two_pow N
      have h3 : 2 ^ N ≤ b ^ N := Nat.pow_le_pow_left hb N
      omega
    set E := Nat.find hex with hEdef
    have hE : ¬ b ^ E ∣ N := Nat.find_spec hex
    have hmin : ∀ r, r < E → b ^ r ∣ N := fun r hr => not_not.mp (Nat.find_min hex hr)
    have hE1 : 1 ≤ E := by
      rcases Nat.eq_zero_or_pos E with h | h
      · exact absurd (h ▸ hE) (by simp)
      · exact h
    have hEN : E - 1 < N := by
      have hd : b ^ (E - 1) ∣ N := hmin (E - 1) (by omega)
      have h1 : b ^ (E - 1) ≤ N := Nat.le_of_dvd (Nat.pos_of_ne_zero hN) hd
      have h2 : E - 1 < 2 ^ (E - 1) := Nat.lt_two_pow (E - 1)
      have h3 : 2 ^ (E - 1) ≤ b ^ (E - 1) := Nat.pow_le_pow_left hb (E - 1)
      omega
    refine ⟨E - 1, ?_, hmin (E - 1) (by omega), ?_⟩
    · exact integerExponentGo_run N b E hE hmin fuel 1 hE1 (by omega)
    · intro j hj
      by_contra hcon
      exact hE ((Nat.pow_dvd_pow b (by omega : E ≤ j)).trans hj)

/-- Witness for C7's terminating clause at `n = 16`, `b = 2` (the
source's doctest `IntegerExponent[16, 2] = 4`). -/
theorem integerExponent_apply_spec_witness :
    (16 : ℤ) ≠ 0 ∧ 2 ≤ 2 ∧ (16 : ℤ).natAbs < 17 ∧
      ∃ e, integerExponentApply 16 2 17 = some e ∧ 2 ^ e ∣ (16 : ℤ).natAbs ∧
        ∀ j, 2 ^ j ∣ (16 : ℤ).natAbs → j ≤ e :=
  ⟨by decide, by decide, by decide,
    integerExponent_apply_spec.2 16 2 17 (by decide) (by decide) (by decide)⟩

/-! ## C8: NextPrime -/

theorem nextprime1_spec (n : ℤ) :
    (nextprime1 n).Prime ∧ n < (nextprime1 n : ℤ) ∧
      ∀ q : ℕ, q.Prime → n < (q : ℤ) → nextprime1 n ≤ q := by
  have H : ∃ m : ℕ, n < (m : ℤ) ∧ m.Prime :=
    match Nat.exists_infinite_primes (n.toNat + 1) with
    | ⟨p, hp, hpp⟩ =>
      ⟨p, lt_of_le_of_lt (Int.self_le_toNat n) (by exact_mod_cast hp), hpp⟩
  have key : nextprime1 n = Nat.find H := rfl
  rw [key]
  exact ⟨(Nat.find_spec H).2, (Nat.find_spec H).1, fun q hq hn => Nat.find_min' H ⟨hn, hq⟩⟩

theorem nextprime1_zero : nextprime1 0 = 2 := by
  have h := nextprime1_spec 0
  have h2 : nextprime1 0 ≤ 2 := h.2.2 2 Nat.prime_two (by norm_num)
  have h1 : 2 ≤ nextprime1 0 := h.1.two_le
  omega

theorem sympyNextprime_le_one {j : ℤ} (hj : j ≤ 1) : sympyNextprime 0 j = 2 := by
  rw [sympyNextprime, if_neg (not_lt.mpr hj), nextprime1_zero]
  rfl

theorem mem_primesBetween {n : ℤ} {p q : ℕ} :
    q ∈ primesBetween n p ↔ q < p ∧ q.Prime ∧ n < (q : ℤ) := by
  simp [primesBetween, and_assoc]

theorem primesBetween_nextprime1 (n : ℤ) : primesBetween n (nextprime1 n) = ∅ := by
  rw [Finset.eq_empty_iff_forall_not_mem]
  intro q hq
  obtain ⟨hlt, hqp, hnq⟩ := mem_primesBetween.mp hq
  exact absurd ((nextprime1_spec n).2.2 q hqp hnq) (by omega)

theorem primesBetween_step (n : ℤ) (p : ℕ) (hp : p.Prime) (hn : n < (p : ℤ)) :
    primesBetween n (nextprime1 (p : ℤ)) = insert p (primesBetween n p) := by
  obtain ⟨hnext_prime, hnext_gt, hnext_min⟩ := nextprime1_spec (p : ℤ)
  ext q
  rw [mem_primesBetween, Finset.mem_insert, mem_primesBetween]
  constructor
  · rintro ⟨hlt, hqp, hnq⟩
    by_cases hqeq : q = p
    · exact Or.inl hqeq
    · refine Or.inr ⟨?_, hqp, hnq⟩
      by_contra hge
      have hpq : (p : ℤ) < q := by
        have := hqp.two_le
        omega
      exact absurd (hnext_min q hqp hpq) (by omega)
  · rintro (rfl | ⟨hlt, hqp, hnq⟩)
    · exact ⟨by exact_mod_cast hnext_gt, hp, hn⟩
    · refine ⟨?_, hqp, hnq⟩
      have : (p : ℤ) < nextprime1 (p : ℤ) := hnext_gt
      omega

theorem nextprimeIter_spec (n : ℤ) : ∀ j : ℕ,
    (nextprimeIter n j).Prime ∧ n < (nextprimeIter n j : ℤ) ∧
      (primesBetween n (nextprimeIter n j)).card = j := by
  intro j
  induction j with
  | zero =>
    obtain ⟨h1, h2, _⟩ := nextprime1_spec n
    exact ⟨h1, h2, by rw [nextprimeIter, primesBetween_nextprime1, Finset.card_empty]⟩
  | succ j ih =>
    obtain ⟨hp, hgt, hcard⟩ := ih
    set p := nextprimeIter n j with hpdef
    obtain ⟨h1, h2, _⟩ := nextprime1_spec (p : ℤ)
    have hstep := primesBetween_step n p hp hgt
    refine ⟨h1, lt_trans hgt h2, ?_⟩
    rw [show nextprimeIter n (j + 1) = nextprime1 (p : ℤ) from rfl, hstep,
      Finset.card_insert_of_not_mem, hcard]
    intro hmem
    exact absurd (mem_primesBetween.mp hmem).1 (lt_irrefl p)

theorem prevprime_none_iff (x : ℤ) : prevprime x = none ↔ x ≤ 2 := by
  rw [prevprime]
  by_cases h : x ≤ 2 <;> simp [h]

theorem prevprime_spec (x : ℤ) (hx : 2 < x) :
    ∃ p, prevprime x = some p ∧ p.Prime ∧ (p : ℤ) < x ∧
      ∀ q : ℕ, q.Prime → (q : ℤ) < x → q ≤ p := by
  refine ⟨Nat.findGreatest Nat.Prime (x.toNat - 1), ?_, ?_, ?_, ?_⟩
  · rw [prevprime, if_neg (not_le.mpr hx)]
  · refine Nat.findGreatest_spec (m := 2) (by omega) Nat.prime_two
  · have := Nat.findGreatest_le (P := Nat.Prime) (x.toNat - 1)
    omega
  · intro q hq hqx
    by_contra hgt
    exact Nat.findGreatest_is_greatest (n := x.toNat - 1) (k := q) (by omega) (by omega) hq

theorem mem_primesBelow {n : ℤ} {q : ℕ} :
    q ∈ primesBelow n ↔ q.Prime ∧ (q : ℤ) < n := by
  simp only [primesBelow, Finset.mem_filter, Finset.mem_range]
  constructor
  · rintro ⟨h1, h2⟩
    exact ⟨h2, by omega⟩
  · rintro ⟨h1, h2⟩
    exact ⟨by omega, h1⟩

theorem primesBelow_empty_of_le_two {x : ℤ} (hx : x ≤ 2) : primesBelow x = ∅ := by
  rw [Finset.eq_empty_iff_forall_not_mem]
  intro q hq
  obtain ⟨hqp, hqx⟩ := mem_primesBelow.mp hq
  have := hqp.two_le
  omega

theorem primesBelow_pos_gt_two {x : ℤ} (hx : 0 < (primesBelow x).card) : 2 < x := by
  obtain ⟨q, hq⟩ := Finset.card_pos.mp hx
  obtain ⟨hqp, hqx⟩ := mem_primesBelow.mp hq
  have := hqp.two_le
  omega

theorem primesBelow_step {x : ℤ} {p : ℕ} (hp : p.Prime) (hpx : (p : ℤ) < x)
    (hmax : ∀ q : ℕ, q.Prime → (q : ℤ) < x → q ≤ p) :
    primesBelow x = insert p (primesBelow (p : ℤ)) := by
  ext q
  rw [mem_primesBelow, Finset.mem_insert, mem_primesBelow]
  constructor
  · rintro ⟨hqp, hqx⟩
    by_cases hqeq : q = p
    · exact Or.inl hqeq
    · have := hmax q hqp hqx
      exact Or.inr ⟨hqp, by omega⟩
  · rintro (rfl | ⟨hqp, hqx⟩)
    · exact ⟨hp, hpx⟩
    · exact ⟨hqp, by omega⟩

theorem prevWalk_zero (k cur : ℤ) (i : ℕ) : prevWalk k 0 cur i = cur := rfl

theorem prevWalk_succ_some {k cur : ℤ} {r i : ℕ} {p : ℕ}
    (h : prevprime cur = some p) :
    prevWalk k (r + 1) cur i = prevWalk k r (p : ℤ) (i + 1) := by
  have h0 : prevWalk k (r + 1) cur i =
      (match prevprime cur with
       | some p => prevWalk k r (p : ℤ) (i + 1)
       | none => -(sympyNextprime 0 (k - (i : ℤ)))) := rfl
  rw [h0, h]

theorem prevWalk_succ_none {k cur : ℤ} {r i : ℕ}
    (h : prevprime cur = none) :
    prevWalk k (r + 1) cur i = -(sympyNextprime 0 (k - (i : ℤ))) := by
  have h0 : prevWalk k (r + 1) cur i =
      (match prevprime cur with
       | some p => prevWalk k r (p : ℤ) (i + 1)
       | none => -(sympyNextprime 0 (k - (i : ℤ)))) := rfl
  rw [h0, h]

/-! The backward walk of `NextPrime.apply` for negative `k`:
if at least `r + 1` primes lie strictly below the current value the walk
returns the `(r+1)`-th of them counting downward, and otherwise it falls
off the bottom and yields `-nextprime(0, k - i) = -2`. -/

theorem prevWalk_spec {k : ℤ} (hk : k < 0) : ∀ (r : ℕ) (x : ℤ) (i : ℕ),
    (r + 1 ≤ (primesBelow x).card →
      ∃ p : ℕ, prevWalk k (r + 1) x i = (p : ℤ) ∧ p.Prime ∧ (p : ℤ) < x ∧
        ((primesBelow x).filter fun q => p < q).card = r)
    ∧ ((primesBelow x).card < r + 1 → prevWalk k (r + 1) x i = -2) := by
  intro r
  induction r with
  | zero =>
    intro x i
    constructor
    · intro hcard
      have hx : 2 < x := primesBelow_pos_gt_two (by omega)
      obtain ⟨p, hsome, hp, hpx, hmax⟩ := prevprime_spec x hx
      refine ⟨p, ?_, hp, hpx, ?_⟩
      · rw [prevWalk_succ_some hsome, prevWalk_zero]
      · rw [Finset.card_eq_zero, Finset.eq_empty_iff_forall_not_mem]
        intro q hq
        obtain ⟨hqmem, hpq⟩ := Finset.mem_filter.mp hq
        obtain ⟨hqp, hqx⟩ := mem_primesBelow.mp hqmem
        exact absurd (hmax q hqp hqx) (by omega)
    · intro hcard
      have hx : x ≤ 2 := by
        by_contra hgt
        have h2 : (2 : ℕ) ∈ primesBelow x :=
          mem_primesBelow.mpr ⟨Nat.prime_two, by omega⟩
        have := Finset.card_pos.mpr ⟨2, h2⟩
        omega
      rw [prevWalk_succ_none ((prevprime_none_iff x).mpr hx),
        sympyNextprime_le_one (by omega : k - (i : ℤ) ≤ 1)]
  | succ r ih =>
    intro x i
    by_cases hx : 2 < x
    · obtain ⟨p, hsome, hp, hpx, hmax⟩ := prevprime_spec x hx
      have hstep := primesBelow_step hp hpx hmax
      have hnotmem : p ∉ primesBelow (p : ℤ) := fun h =>
        absurd (mem_primesBelow.mp h).2 (lt_irrefl _)
      have hcard : (primesBelow x).card = (primesBelow (p : ℤ)).card + 1 := by
        rw [hstep, Finset.card_insert_of_not_mem hnotmem]
      constructor
      · intro hle
        obtain ⟨p2, heq, hp2, hlt2, hcard2⟩ := (ih (p : ℤ) (i + 1)).1 (by omega)
        refine ⟨p2, ?_, hp2, by omega, ?_⟩
        · rw [prevWalk_succ_some hsome]
          exact heq
        · have hp2p : p2 < p := by exact_mod_cast hlt2
          rw [hstep, Finset.filter_insert, if_pos hp2p,
            Finset.card_insert_of_not_mem, hcard2]
          intro hmem
          exact hnotmem (Finset.mem_of_mem_filter p hmem)
      · intro hlt
        rw [prevWalk_succ_some hsome]
        exact (ih (p : ℤ) (i + 1)).2 (by omega)
    · constructor
      · intro hle
        rw [primesBelow_empty_of_le_two (by omega), Finset.card_empty] at hle
        omega
      · intro _
        rw [prevWalk_succ_none ((prevprime_none_iff x).mpr (by omega)),
          sympyNextprime_le_one (by omega : k - (i : ℤ) ≤ 1)]

/-- C8: `NextPrime[n, k]`.  For `k ≥ 1` the result is the `k`-th prime
strictly greater than `n` (it is prime, exceeds `n`, and exactly `k - 1`
primes lie strictly between); for `k = 0` the source falls into sympy's
single-step branch and returns the next prime.  For `k < 0`, when at
least `|k|` primes lie strictly below `n` the result is the `|k|`-th of
them counting downward, and otherwise the walk falls below the smallest
prime and returns `-nextprime(0, k - i)`, which is always `-2` since
`nextprime(0, j) = 2` for every `j ≤ 1`. -/
theorem nextPrime_apply_spec :
    (∀ n k : ℤ, 1 ≤ k →
      ∃ p : ℕ, nextPrimeApply n k = (p : ℤ) ∧ p.Prime ∧ n < (p : ℤ) ∧
        (primesBetween n p).card = k.toNat - 1)
    ∧ (∀ n : ℤ, nextPrimeApply n 0 = (nextprime1 n : ℤ))
    ∧ (∀ n k : ℤ, k < 0 →
        ((-k).toNat ≤ (primesBelow n).card →
          ∃ p : ℕ, nextPrimeApply n k = (p : ℤ) ∧ p.Prime ∧ (p : ℤ) < n ∧
            ((primesBelow n).filter fun q => p < q).card = (-k).toNat - 1)
        ∧ ((primesBelow n).card < (-k).toNat → nextPrimeApply n k = -2))
    ∧ (∀ j : ℤ, j ≤ 1 → -(sympyNextprime 0 j) = -2) := by
  refine ⟨?_, ?_, ?_, fun j hj => by rw [sympyNextprime_le_one hj]⟩
  · intro n k hk
    have happ : nextPrimeApply n k = (nextprimeIter n (k.toNat - 1) : ℤ) := by
      rw [nextPrimeApply, if_pos (by omega : (0 : ℤ) ≤ k), sympyNextprime]
      by_cases h1 : 1 < k
      · rw [if_pos h1]
      · have : k = 1 := by omega
        subst this
        rw [if_neg (by omega)]
        rfl
    obtain ⟨h1, h2, h3⟩ := nextprimeIter_spec n (k.toNat - 1)
    exact ⟨nextprimeIter n (k.toNat - 1), happ, h1, h2, h3⟩
  · intro n
    rw [nextPrimeApply, if_pos le_rfl, sympyNextprime, if_neg (by omega)]
  · intro n k hk
    have happ : nextPrimeApply n k = prevWalk k (-k).toNat n 0 := by
      rw [nextPrimeApply, if_neg (not_le.mpr hk)]
    obtain ⟨r, hr⟩ : ∃ r : ℕ, (-k).toNat = r + 1 := ⟨(-k).toNat - 1, by omega⟩
    rw [happ, hr]
    have hspec := prevWalk_spec hk r n 0
    constructor
    · intro hle
      obtain ⟨p, heq, hp, hlt, hcard⟩ := hspec.1 (by omega)
      exact ⟨p, heq, hp, hlt, by omega⟩
    · intro hlt
      exact hspec.2 (by omega)

/-- Witness for C8 at `NextPrime[100, 5] = 113` (forward) and
`NextPrime[10, -5] = -2` (backward wraparound), both source doctests. -/
theorem nextPrime_apply_spec_witness :
    ((1 : ℤ) ≤ 5 ∧ ∃ p : ℕ, nextPrimeApply 100 5 = (p : ℤ) ∧ p.Prime ∧
      (100 : ℤ) < (p : ℤ) ∧ (primesBetween 100 p).card = (5 : ℤ).toNat - 1)
    ∧ ((-5 : ℤ) < 0 ∧ (primesBelow 10).card < (-(-5 : ℤ)).toNat ∧
      nextPrimeApply 10 (-5) = -2) :=
  ⟨⟨by norm_num, nextPrime_apply_spec.1 100 5 (by norm_num)⟩,
   ⟨by norm_num, by decide,
    (nextPrime_apply_spec.2.2.1 10 (-5) (by norm_num)).2 (by decide)⟩⟩

/-! ## C10: PrimeQ and PrimePowerQ on non-integer input and at zero -/

/-- C10 counterexample: `PrimePowerQ[0]` returns `True` (because
`sympy.factorint(0) = {0: 1}` has length one), although `0` is not a
power of a prime, so on the integer-valued input `0` the code does not
decide the prime-power property of `|n|`. -/
theorem primePowerQ_zero_counterexample :
    primePowerQApply (some 0) = true ∧ ¬ IsPrimePow (0 : ℕ) :=
  ⟨by decide, not_isPrimePow_zero⟩

/-- C10 amended: both predicates return `False` (never failing) on every
input without an integer value; on integer-valued input `n ≠ 0`,
`PrimeQ` decides primality of `|n|` and `PrimePowerQ` decides the
prime-power property of `|n|`; at `n = 0`, `PrimeQ[0] = False` is
correct but `PrimePowerQ[0] = True` is an artifact of
`sympy.factorint(0) = {0: 1}`. -/
theorem primeQ_primePowerQ_spec :
    (primeQApply none = false ∧ primePowerQApply none = false)
    ∧ (∀ n : ℤ, n ≠ 0 →
        (primeQApply (some n) = true ↔ Nat.Prime n.natAbs)
        ∧ (primePowerQApply (some n) = true ↔ IsPrimePow n.natAbs))
    ∧ (primeQApply (some 0) = false ∧ primePowerQApply (some 0) = true) := by
  refine ⟨⟨rfl, rfl⟩, ?_, by decide, by decide⟩
  intro n hn
  have hN : n.natAbs ≠ 0 := fun h => hn (Int.natAbs_eq_zero.mp h)
  constructor
  · simp [primeQApply]
  · rw [primePowerQApply, factorintCard, if_neg hN]
    rw [isPrimePow_iff_card_primeFactors_eq_one]
    simp

/-- Witness for C10's integer-valued clause at `n = -8`
(the source doctest `PrimePowerQ[-8] = True`). -/
theorem primeQ_primePowerQ_spec_witness :
    (-8 : ℤ) ≠ 0 ∧
      ((primeQApply (some (-8)) = true ↔ Nat.Prime (-8 : ℤ).natAbs)
        ∧ (primePowerQApply (some (-8)) = true ↔ IsPrimePow (-8 : ℤ).natAbs)) :=
  ⟨by decide, primeQ_primePowerQ_spec.2.1 (-8) (by decide)⟩

end Mathics
